import Mathlib

/-!
Verification of the `dtsearch` table renderer (`src/index.ts`).

Cell text is embedded as `List Char` (JS strings at character granularity).
External collaborators (the chalk styling library, the JS `RegExp` engine
restricted to the patterns the program builds, the `he` entity decoder and
the `moment` date library) are modelled by explicit Lean functions; each
such model carries a doc comment saying what it stands for.
-/

/-- JS strings, embedded at character granularity. -/
abbrev Str := List Char

/-- Coerce a Lean string literal to the `Str` embedding. -/
def str (s : String) : Str := s.toList

/-- Embedding of JS `String.prototype.padStart(width)` (pads with spaces,
no-op when the string is already at least `width` long). -/
def padStart (w : Nat) (v : Str) : Str := List.replicate (w - v.length) ' ' ++ v

/-- Embedding of JS `String.prototype.padEnd(width)`. -/
def padEnd (w : Nat) (v : Str) : Str := v ++ List.replicate (w - v.length) ' '

/-- The terminal escape character `\x1b`. -/
def escChar : Char := Char.ofNat 27

/-- Opening code emitted by `chalk.bold`: `ESC[1m`. -/
def boldOn : Str := [escChar, '[', '1', 'm']

/-- Closing code emitted by `chalk.bold`: `ESC[22m`. -/
def boldOff : Str := [escChar, '[', '2', '2', 'm']

/-- Model of `chalk.bold`: wrap the text in the bold on/off escape codes. -/
def bold (s : Str) : Str := boldOn ++ s ++ boldOff

/-- Visible-character count, scanning with a flag that records whether the
scanner is inside an `ESC … m` styling sequence (such characters are
zero-width); every other character counts one. -/
def visibleLenAux : Bool → Str → Nat
  | _, [] => 0
  | true, c :: r => if c = 'm' then visibleLenAux false r else visibleLenAux true r
  | false, c :: r => if c = escChar then visibleLenAux true r else 1 + visibleLenAux false r

/-- Number of visible characters of a terminal string: characters that are
part of an `ESC … m` styling sequence are zero-width, the rest count one. -/
def visibleLen (s : Str) : Nat := visibleLenAux false s

/-- One token of a compiled JS regular expression: a literal character
(matched case-insensitively under the `i` flag) or the `.` wildcard. -/
inductive PTok where
  | lit (c : Char)
  | anyChar
  deriving DecidableEq, Repr

/-- Model of `new RegExp(word, 'ig')` for the fragment of regex syntax the
program can build from matched words made of plain characters and dots:
each `.` compiles to the wildcard, every other character to a literal. -/
def compileWord (w : Str) : List PTok :=
  w.map fun c => if c = '.' then PTok.anyChar else PTok.lit c

/-- Whether one pattern token matches one character: the wildcard matches
everything except a line terminator, a literal matches up to ASCII case. -/
def tokMatches : PTok → Char → Bool
  | PTok.anyChar, c =>
    !(c == '\n' || c == '\r' || c == Char.ofNat 0x2028 || c == Char.ofNat 0x2029)
  | PTok.lit a, c => a.toLower == c.toLower

/-- Whether the pattern matches a prefix of the string (token by token). -/
def matchesAt : List PTok → Str → Bool
  | [], _ => true
  | _ :: _, [] => false
  | t :: ps, c :: cs => tokMatches t c && matchesAt ps cs

/-- Fuel-indexed scanner behind `jsReplaceAll`; the fuel only bounds the
number of scanning steps (one step always consumes at least one input
character, so `s.length` fuel is always enough). -/
def jsRepF (p : List PTok) (rep : Str) : Nat → Str → Str
  | _, [] => if p = [] then rep else []
  | 0, s => s
  | fuel + 1, c :: cs =>
    if matchesAt p (c :: cs) then
      if p = [] then rep ++ c :: jsRepF p rep fuel cs
      else rep ++ jsRepF p rep fuel ((c :: cs).drop p.length)
    else c :: jsRepF p rep fuel cs

/-- Embedding of `val.replace(regex_with_g, rep)`: scan left to right, at a
match emit `rep` and resume after the matched characters (after one
character for an empty match, as JS does), otherwise copy one character. -/
def jsReplaceAll (p : List PTok) (rep : Str) (s : Str) : Str :=
  jsRepF p rep s.length s

/-- Whether the pattern matches at some position of the string. -/
def anyMatch (p : List PTok) : Str → Bool
  | [] => matchesAt p []
  | c :: cs => matchesAt p (c :: cs) || anyMatch p cs

/-- The per-field highlight annotation returned by the search service
(interface `Description` of the missing `src/response.ts`; shape taken
from its uses in `src/index.ts`). -/
structure Description where
  value : Str
  matchLevel : Str
  fullyHighlighted : Bool
  matchedWords : List Str
  deriving DecidableEq, Repr

/-- Embedding of `highlightValue` (src/index.ts:215–232). -/
def highlightValue (val : Str) (hr : Option Description) : Str :=
  match hr with
  | none => val
  | some h =>
    if h.matchLevel = str "none" then val
    else if h.fullyHighlighted then bold val
    else h.matchedWords.foldl (fun v w => jsReplaceAll (compileWord w) (bold w) v) val

example : highlightValue (str "Foo") (some ⟨str "x", str "full", true, []⟩)
    = bold (str "Foo") := by decide

example : highlightValue (str "Foo")
    (some ⟨str "x", str "partial", false, [str "foo"]⟩) = bold (str "foo") := by decide

/-- A package's repository sub-object (only its `url` is read). -/
structure Repo where
  url : Str
  deriving DecidableEq, Repr, Inhabited

/-- A package's type-declaration info: `types.ts` is `"included"`,
`"definitely-typed"` or something else, and `types.definitelyTyped` names
the `@types` package when it exists. -/
structure TypesInfo where
  ts : Str
  definitelyTyped : Str
  deriving DecidableEq, Repr, Inhabited

/-- The `_highlightResult` sub-object of a hit: per-field highlight
annotations for the fields the program highlights. -/
structure HLResult where
  name : Option Description
  description : Option Description
  deriving DecidableEq, Repr

instance : Inhabited HLResult := ⟨⟨none, none⟩⟩

/-- One search-result record (interface `Hit` of the missing
`src/response.ts`; fields and their optionality taken from how
`src/index.ts` reads them: `description`, `homepage` and `repository` are
guarded against absence, the rest are read unconditionally). -/
structure Hit where
  objectID : Str
  humanDownloadsLast30Days : Str
  popular : Bool
  types : TypesInfo
  description : Option Str
  modified : Int
  homepage : Option Str
  repository : Option Repo
  hlResult : HLResult
  deriving Repr

instance : Inhabited Hit :=
  ⟨⟨[], [], false, default, none, 0, none, none, default⟩⟩

/-- Column alignment (`align?: 'left' | 'right'` in the source). -/
inductive ColAlign where
  | left
  | right
  deriving DecidableEq, Repr

/-- One column definition (interface `Column`, src/index.ts:53–61). -/
structure Column where
  header : Str
  align : Option ColAlign := none
  maxWidth : Option Nat := none
  format : Hit → Str
  highlight : Option (Str → Hit → Str) := none
  importance : Int
  mutexGroup : Option String := none

/-- JS `a || b` on an optional string: an absent or empty (falsy) `a`
yields `b`. -/
def jsOrStr (o : Option Str) (d : Str) : Str :=
  match o with
  | some s => if s = [] then d else s
  | none => d

/-- JS `a || b` on an optional number: an absent or zero (falsy) `a`
yields `b`. -/
def jsOrNat (o : Option Nat) (d : Nat) : Nat :=
  match o with
  | some n => if n = 0 then d else n
  | none => d

/-- Model of the external `he` entity decoder used by the description
columns, restricted to the common named entities; the claims depend only
on its totality and on absent fields entering it as the empty string. -/
def decodeEntities : Str → Str
  | [] => []
  | '&' :: 'a' :: 'm' :: 'p' :: ';' :: r => '&' :: decodeEntities r
  | '&' :: 'l' :: 't' :: ';' :: r => '<' :: decodeEntities r
  | '&' :: 'g' :: 't' :: ';' :: r => '>' :: decodeEntities r
  | '&' :: 'q' :: 'u' :: 'o' :: 't' :: ';' :: r => '"' :: decodeEntities r
  | '&' :: '#' :: '3' :: '9' :: ';' :: r => '\'' :: decodeEntities r
  | c :: r => c :: decodeEntities r

/-- Model of `moment(h.modified).format('YYYY-MM-DD')` from the external
`moment` library: some locale-agnostic total rendering of the timestamp
(the claims do not depend on the concrete text). -/
def formatDate (t : Int) : Str := (toString t).toList

/-- Model of `moment(h.modified).fromNow()` from the external `moment`
library: some total relative-time rendering of the timestamp. -/
def fromNow (t : Int) : Str := str "ago " ++ (toString t).toList

/-- Embedding of `makeInstallCommand` (src/index.ts:148–156); the source
reads the `--exact` flag from the global `program`, passed here as an
argument. -/
def makeInstallCommand (exact : Bool) (cmd : Str) (h : Hit) : Str :=
  let install := cmd ++ str " " ++ (if exact then str "-E " else str "") ++ h.objectID
  if h.types.ts = str "included" then install
  else if h.types.ts = str "definitely-typed" then
    install ++ str " && " ++ cmd ++ str " -D" ++ (if exact then str "E" else str "") ++
      str " " ++ h.types.definitelyTyped
  else str ""

/-- Embedding of the column catalog (src/index.ts:63–146); the source
reads the `--exact` flag from the global `program` inside the install
columns' extractors, passed here as an argument. -/
def columns (exact : Bool) : List Column := [
  { header := str "DLs",
    format := fun h => h.humanDownloadsLast30Days,
    importance := 3,
    align := some ColAlign.right },
  { header := str "pop",
    format := fun h => if h.popular then str "🔥" else str "",
    importance := 2 },
  { header := str "name",
    format := fun h => h.objectID,
    highlight := some fun v h => highlightValue v h.hlResult.name,
    importance := 100 },
  { header := str "types",
    format := fun h =>
      if h.types.ts = str "included" then str "<bundled>"
      else if h.types.ts = str "definitely-typed" then h.types.definitelyTyped
      else str "",
    importance := 100,
    mutexGroup := some "types" },
  { header := str "types",
    format := fun h =>
      if h.types.ts = str "included" then str "<inc>"
      else if h.types.ts = str "definitely-typed" then str "dt"
      else str "",
    importance := 80,
    mutexGroup := some "types" },
  { header := str "npm",
    format := fun h => makeInstallCommand exact (str "npm install") h,
    importance := -1 },
  { header := str "yarn",
    format := fun h => makeInstallCommand exact (str "yarn add") h,
    importance := -1 },
  { header := str "description",
    format := fun h => decodeEntities (jsOrStr h.description (str "")),
    highlight := some fun v h => highlightValue v h.hlResult.description,
    maxWidth := some 40,
    importance := 25,
    mutexGroup := some "desc" },
  { header := str "description",
    format := fun h => decodeEntities (jsOrStr h.description (str "")),
    highlight := some fun v h => highlightValue v h.hlResult.description,
    maxWidth := some 60,
    importance := 30,
    mutexGroup := some "desc" },
  { header := str "description",
    format := fun h => decodeEntities (jsOrStr h.description (str "")),
    highlight := some fun v h => highlightValue v h.hlResult.description,
    importance := 35,
    mutexGroup := some "desc" },
  { header := str "date",
    format := fun h => formatDate h.modified,
    importance := 1 },
  { header := str "updated",
    format := fun h => fromNow h.modified,
    importance := 5 },
  { header := str "homepage",
    format := fun h => jsOrStr h.homepage (match h.repository with
      | some r => r.url
      | none => str ""),
    importance := 10 },
  { header := str "repo",
    format := fun h => match h.repository with
      | some r => r.url
      | none => str "",
    importance := -1 }
]

/-- Embedding of `formatResult` (src/index.ts:200–202), over an explicit
catalog (the source reads the global, possibly importance-adjusted,
`columns`). -/
def formatResult (cols : List Column) (result : Hit) : List Str :=
  cols.map fun col => col.format result

/-- lodash `_.max` over a list of naturals (the program only passes
nonempty lists, where this is the maximum). -/
def lmax (l : List Nat) : Nat := l.foldr Nat.max 0

/-- The body of `formatColumn`'s `vals.map` (src/index.ts:209–212):
truncate the value with `slice(0, width)`, then pad to `width`, on the
left when the column is right-aligned and on the right otherwise. -/
def alignCell (width : Nat) (align : Option ColAlign) (v : Str) : Str :=
  let t := v.take width
  if align = some ColAlign.right then padStart width t else padEnd width t

/-- Embedding of `formatColumn` (src/index.ts:204–213). -/
def formatColumn (vals : List Str) (spec : Column) : List Str :=
  let maxLen := lmax (vals.map List.length)
  let width := Nat.min maxLen (jsOrNat spec.maxWidth maxLen)
  vals.map (alignCell width spec.align)

/-- The width budget used by the solver model:
`process.stdout.columns || 80` (src/index.ts:160). -/
def widthBudget (termCols : Option Nat) : Nat := jsOrNat termCols 80

/-- Width cost of a selection of columns: each selected column costs its
natural width plus one separator unit (the `width` constraint of the LP
model, src/index.ts:160 and 178). -/
def selCost (cols : List Column) (widths : List Nat) (S : Finset (Fin cols.length)) : Nat :=
  ∑ i ∈ S, (1 + widths.getD i.val 0)

/-- Total importance of a selection (the LP objective, src/index.ts:172). -/
def selImp (cols : List Column) (S : Finset (Fin cols.length)) : Int :=
  ∑ i ∈ S, (cols.get i).importance

/-- The mutex-group tags present in the catalog (src/index.ts:159). -/
def mutexTags (cols : List Column) : List String :=
  (cols.filterMap Column.mutexGroup).dedup

/-- At most one selected column per mutex group (the per-group `max: 1`
constraints of the LP model, src/index.ts:162–164 and 180). -/
def mutexOk (cols : List Column) (S : Finset (Fin cols.length)) : Bool :=
  (mutexTags cols).all fun g =>
    decide ((S.filter fun i => (cols.get i).mutexGroup = some g).card ≤ 1)

/-- A selection is feasible for the 0/1 program when it fits the width
budget (`Σ (1 + width_i) ≤ budget + 1`) and respects every mutex group. -/
def feasibleSel (cols : List Column) (widths : List Nat) (termCols : Option Nat)
    (S : Finset (Fin cols.length)) : Bool :=
  decide (selCost cols widths S ≤ 1 + widthBudget termCols) && mutexOk cols S

/-- What `solver.Solve` reports back to `pickColumns`: a feasibility flag
and, per column variable, whether it is selected (`result[i]`,
src/index.ts:190–195). -/
structure SolverResult (n : Nat) where
  feasible : Bool
  pick : Fin n → Bool

/-- Every 0/1 assignment to `n` column variables, as finite index sets. -/
def allSels (n : Nat) : List (Finset (Fin n)) :=
  (List.finRange n).sublists.map List.toFinset

/-- Model of the external `javascript-lp-solver` on the integer 0/1 model
`pickColumns` builds (src/index.ts:170–190): an exact solver, returning a
feasible selection of maximal total importance when one exists. -/
def exactSolve (cols : List Column) (widths : List Nat) (termCols : Option Nat) :
    SolverResult cols.length :=
  match ((allSels cols.length).filter
      (feasibleSel cols widths termCols)).argmax (selImp cols) with
  | some S => ⟨true, fun i => decide (i ∈ S)⟩
  | none => ⟨false, fun _ => false⟩

/-- Embedding of the tail of `pickColumns` (src/index.ts:194–197): on a
feasible result, the indices the solver set; otherwise the fallback of
every column whose importance is at least 25. -/
def pickColumnsWith (cols : List Column) (res : SolverResult cols.length) :
    List (Fin cols.length) :=
  if res.feasible then (List.finRange cols.length).filter fun i => res.pick i
  else (List.finRange cols.length).filter fun i => decide (25 ≤ (cols.get i).importance)

/-- Embedding of `pickColumns` (src/index.ts:158–198), over an explicit
catalog, width vector and terminal width. -/
def pickColumns (cols : List Column) (widths : List Nat) (termCols : Option Nat) :
    List (Fin cols.length) :=
  pickColumnsWith cols (exactSolve cols widths termCols)

theorem mem_allSels {n : Nat} (T : Finset (Fin n)) : T ∈ allSels n := by
  have hsub : List.Sublist (Finset.sort (· ≤ ·) T) (List.finRange n) :=
    List.sublist_of_subperm_of_sorted
      (List.subperm_of_subset (Finset.sort_nodup _ T) fun a _ => List.mem_finRange a)
      (Finset.sort_sorted _ T) (List.pairwise_le_finRange n)
  have hmem : Finset.sort (· ≤ ·) T ∈ (List.finRange n).sublists :=
    List.mem_sublists.2 hsub
  have hT : (Finset.sort (· ≤ ·) T).toFinset = T := Finset.sort_toFinset _ T
  simpa [allSels, hT] using List.mem_map_of_mem List.toFinset hmem

theorem toFinset_filter_mem {n : Nat} (S : Finset (Fin n)) :
    ((List.finRange n).filter fun i => decide (i ∈ S)).toFinset = S := by
  ext i
  simp [List.mem_filter, List.mem_finRange]

/-- C1: for every vector of natural column widths and every width budget
(the terminal width, or 80 when unavailable), when the solver reports a
feasible result, `pickColumns` returns a selection that satisfies
`Σ (1 + natural_width) ≤ budget + 1` and at most one column per mutex
group, and no other subset satisfying those two constraints has strictly
greater total importance. -/
theorem pickColumns_optimal (cols : List Column) (widths : List Nat) (termCols : Option Nat)
    (hfeas : (exactSolve cols widths termCols).feasible = true) :
    selCost cols widths (pickColumns cols widths termCols).toFinset
        ≤ widthBudget termCols + 1 ∧
    mutexOk cols (pickColumns cols widths termCols).toFinset = true ∧
    ∀ T : Finset (Fin cols.length),
      selCost cols widths T ≤ widthBudget termCols + 1 → mutexOk cols T = true →
      selImp cols T ≤ selImp cols (pickColumns cols widths termCols).toFinset := by
  cases hM : ((allSels cols.length).filter
      (feasibleSel cols widths termCols)).argmax (selImp cols) with
  | none =>
    exfalso
    rw [exactSolve, hM] at hfeas
    exact Bool.false_ne_true hfeas
  | some S =>
    have hpick : pickColumns cols widths termCols
        = (List.finRange cols.length).filter fun i => decide (i ∈ S) := by
      rw [pickColumns, exactSolve, hM, pickColumnsWith]
      rfl
    have hfin : (pickColumns cols widths termCols).toFinset = S := by
      rw [hpick]; exact toFinset_filter_mem S
    have hargS : S ∈ ((allSels cols.length).filter
        (feasibleSel cols widths termCols)).argmax (selImp cols) := by
      rw [hM]; rfl
    have hmem : S ∈ (allSels cols.length).filter (feasibleSel cols widths termCols) :=
      List.argmax_mem hargS
    have hSfeas : feasibleSel cols widths termCols S = true :=
      (List.mem_filter.1 hmem).2
    rw [feasibleSel, Bool.and_eq_true, decide_eq_true_eq] at hSfeas
    obtain ⟨hcost, hmutex⟩ := hSfeas
    refine ⟨by rw [hfin]; omega, by rw [hfin]; exact hmutex, ?_⟩
    intro T hTcost hTmutex
    have hTfeas : feasibleSel cols widths termCols T = true := by
      rw [feasibleSel, Bool.and_eq_true, decide_eq_true_eq]
      exact ⟨by omega, hTmutex⟩
    have hTmem : T ∈ (allSels cols.length).filter (feasibleSel cols widths termCols) :=
      List.mem_filter.2 ⟨mem_allSels T, hTfeas⟩
    rw [hfin]
    exact List.le_of_mem_argmax hTmem hargS

/-- Small concrete catalog from the spec's scenarios: two mutex-grouped
description columns (narrow, importance 25; wide, importance 35). -/
def descCols : List Column := [
  { header := str "description", maxWidth := some 20, importance := 25,
    mutexGroup := some "desc", format := fun _ => str "" },
  { header := str "description", maxWidth := some 40, importance := 35,
    mutexGroup := some "desc", format := fun _ => str "" }]

/-- Witness for C1: the scenario catalog with widths 20 and 40 under
budget 30; the solver is feasible there and the theorem applies. -/
theorem pickColumns_optimal_witness :
    (exactSolve descCols [20, 40] (some 30)).feasible = true ∧
    (selCost descCols [20, 40] (pickColumns descCols [20, 40] (some 30)).toFinset
        ≤ widthBudget (some 30) + 1 ∧
      mutexOk descCols (pickColumns descCols [20, 40] (some 30)).toFinset = true ∧
      ∀ T : Finset (Fin descCols.length),
        selCost descCols [20, 40] T ≤ widthBudget (some 30) + 1 →
        mutexOk descCols T = true →
        selImp descCols T ≤ selImp descCols
          (pickColumns descCols [20, 40] (some 30)).toFinset) :=
  ⟨by decide, pickColumns_optimal descCols [20, 40] (some 30) (by decide)⟩

/-- C2: when the solver reports infeasibility, `pickColumns` returns
exactly the columns whose importance is at or above the fixed always-show
threshold (25), ignoring widths and mutex groups, and the fallback is the
same for every infeasible solver report (deterministic in the inputs). -/
theorem pickColumns_fallback (cols : List Column) (res : SolverResult cols.length)
    (hinf : res.feasible = false) :
    (∀ i : Fin cols.length,
        i ∈ pickColumnsWith cols res ↔ 25 ≤ (cols.get i).importance) ∧
    (∀ res' : SolverResult cols.length, res'.feasible = false →
      pickColumnsWith cols res' = pickColumnsWith cols res) ∧
    List.Pairwise (fun a b : Fin cols.length => a.val < b.val)
      (pickColumnsWith cols res) := by
  refine ⟨?_, ?_, ?_⟩
  · intro i
    simp [pickColumnsWith, hinf, List.mem_filter, List.mem_finRange]
  · intro res' h'
    simp [pickColumnsWith, hinf, h']
  · rw [pickColumnsWith, if_neg (by simp [hinf])]
    exact List.Pairwise.sublist (List.filter_sublist _)
      ((List.pairwise_lt_finRange _).imp fun hab => hab)

/-- Witness for C2: an infeasible solver report over the scenario catalog
selects exactly the importance-25 column and the importance-35 column. -/
theorem pickColumns_fallback_witness :
    ((⟨false, fun _ => false⟩ : SolverResult descCols.length).feasible = false) ∧
    ((∀ i : Fin descCols.length,
        i ∈ pickColumnsWith descCols ⟨false, fun _ => false⟩
          ↔ 25 ≤ (descCols.get i).importance) ∧
      (∀ res' : SolverResult descCols.length, res'.feasible = false →
        pickColumnsWith descCols res' = pickColumnsWith descCols ⟨false, fun _ => false⟩) ∧
      List.Pairwise (fun a b : Fin descCols.length => a.val < b.val)
        (pickColumnsWith descCols ⟨false, fun _ => false⟩)) :=
  ⟨rfl, pickColumns_fallback descCols ⟨false, fun _ => false⟩ rfl⟩

theorem length_padStart (w : Nat) (v : Str) (h : v.length ≤ w) :
    (padStart w v).length = w := by
  simp only [padStart, List.length_append, List.length_replicate]
  omega

theorem length_padEnd (w : Nat) (v : Str) (h : v.length ≤ w) :
    (padEnd w v).length = w := by
  simp only [padEnd, List.length_append, List.length_replicate]
  omega

theorem alignCell_length (w : Nat) (a : Option ColAlign) (v : Str) :
    (alignCell w a v).length = w := by
  have ht : (v.take w).length ≤ w := by
    rw [List.length_take]
    omega
  rw [alignCell]
  split
  · exact length_padStart w _ ht
  · exact length_padEnd w _ ht

/-- C3: the alignment step truncates the value to at most `width`
characters first, then pads with spaces to exactly `width` — on the left
for a right-aligned column and on the right otherwise (left is the
default) — so the result always has length exactly `width`, a value at
least as long as `width` is exactly its truncation, and a shorter value
keeps its content and only gains padding. -/
theorem alignCell_spec (v : Str) (w : Nat) (a : Option ColAlign) :
    (alignCell w a v).length = w ∧
    (w ≤ v.length → alignCell w a v = v.take w) ∧
    (v.length ≤ w → alignCell w a v =
      if a = some ColAlign.right
        then List.replicate (w - v.length) ' ' ++ v
        else v ++ List.replicate (w - v.length) ' ') := by
  refine ⟨alignCell_length w a v, ?_, ?_⟩
  · intro hw
    have ht : (v.take w).length = w := by
      rw [List.length_take]
      omega
    rw [alignCell]
    split
    · rw [padStart, ht]
      simp
    · rw [padEnd, ht]
      simp
  · intro hv
    have ht : v.take w = v := List.take_of_length_le hv
    rw [alignCell, ht]
    split
    · rw [padStart]
    · rw [padEnd]

/-- Witness for C3: aligning the two-character value `ab` in a width-5
left-aligned column gives exactly `ab` plus three spaces. -/
theorem alignCell_spec_witness :
    (alignCell 5 none (str "ab")).length = 5 ∧
    alignCell 5 none (str "ab") = str "ab" ++ List.replicate 3 ' ' := by
  have h := alignCell_spec (str "ab") 5 none
  exact ⟨h.1, by simpa using h.2.2 (by decide)⟩

theorem lmax_le_of_mem {l : List Nat} {x : Nat} (h : x ∈ l) : x ≤ lmax l := by
  induction l with
  | nil => cases h
  | cons a t ih =>
    rcases List.mem_cons.1 h with rfl | hm
    · exact Nat.le_max_left _ _
    · exact Nat.le_trans (ih hm) (Nat.le_max_right _ _)

theorem lmax_mem {l : List Nat} (h : l ≠ []) : lmax l ∈ l := by
  induction l with
  | nil => exact absurd rfl h
  | cons a t ih =>
    cases t with
    | nil => simp [lmax]
    | cons b u =>
      rcases Nat.le_total a (lmax (b :: u)) with hle | hle
      · have h2 : lmax (a :: b :: u) = lmax (b :: u) := by
          show Nat.max a (lmax (b :: u)) = lmax (b :: u)
          exact Nat.max_eq_right hle
        rw [h2]
        exact List.mem_cons_of_mem a (ih (by simp))
      · have h2 : lmax (a :: b :: u) = a := by
          show Nat.max a (lmax (b :: u)) = a
          exact Nat.max_eq_left hle
        rw [h2]
        exact List.mem_cons_self a _

/-- C8: a column's natural width — the length the program reads off the
formatted header cell — is the maximum string length among the header and
every row's value, capped above by the column's `maxWidth` when present
(and at least 1); it is well defined with zero rows and depends only on
that one column's values. -/
theorem naturalWidth_spec (spec : Column) (header : Str) (rowVals : List Str)
    (hm : ∀ m, spec.maxWidth = some m → 1 ≤ m) :
    (∀ v ∈ header :: rowVals,
        v.length ≤ lmax ((header :: rowVals).map List.length)) ∧
    (∃ v ∈ header :: rowVals,
        v.length = lmax ((header :: rowVals).map List.length)) ∧
    ((formatColumn (header :: rowVals) spec).getD 0 []).length
      = match spec.maxWidth with
        | none => lmax ((header :: rowVals).map List.length)
        | some m => Nat.min (lmax ((header :: rowVals).map List.length)) m := by
  refine ⟨?_, ?_, ?_⟩
  · intro v hv
    exact lmax_le_of_mem (List.mem_map_of_mem List.length hv)
  · have hmem : lmax ((header :: rowVals).map List.length) ∈
        (header :: rowVals).map List.length := lmax_mem (by simp)
    rcases List.mem_map.1 hmem with ⟨v, hv, hlen⟩
    exact ⟨v, hv, hlen⟩
  · have hhead : (formatColumn (header :: rowVals) spec).getD 0 []
        = alignCell
            (Nat.min (lmax ((header :: rowVals).map List.length))
              (jsOrNat spec.maxWidth (lmax ((header :: rowVals).map List.length))))
            spec.align header := by
      rw [formatColumn]
      rfl
    rw [hhead, alignCell_length]
    cases hmw : spec.maxWidth with
    | none => simp [jsOrNat]
    | some m =>
      have h1 : 1 ≤ m := hm m hmw
      simp only [jsOrNat]
      rw [if_neg (by omega)]

/-- Witness for C8: a description column capped at 20, a header of length
11 and zero rows: the natural width is min 11 20 = 11. -/
theorem naturalWidth_spec_witness :
    (∀ v ∈ [str "DESCRIPTION"],
        v.length ≤ lmax ([str "DESCRIPTION"].map List.length)) ∧
    (∃ v ∈ [str "DESCRIPTION"],
        v.length = lmax ([str "DESCRIPTION"].map List.length)) ∧
    ((formatColumn [str "DESCRIPTION"]
        { header := str "description", maxWidth := some 20, importance := 25,
          format := fun _ => str "" }).getD 0 []).length
      = Nat.min (lmax ([str "DESCRIPTION"].map List.length)) 20 := by
  have h := naturalWidth_spec
    { header := str "description", maxWidth := some 20, importance := 25,
      format := fun _ => str "" }
    (str "DESCRIPTION") [] (by intro m hmm; cases hmm; omega)
  exact ⟨h.1, h.2.1, h.2.2⟩

/-- A record with an absent homepage but a present repository. -/
def hitNoHomepage : Hit :=
  { objectID := str "pkg", humanDownloadsLast30Days := str "1k", popular := false,
    types := ⟨str "included", str ""⟩, description := none, modified := 0,
    homepage := none, repository := some ⟨str "https://r"⟩, hlResult := ⟨none, none⟩ }

/-- A record with all guarded optional fields absent. -/
def hitAllAbsent : Hit :=
  { objectID := str "pkg", humanDownloadsLast30Days := str "1k", popular := false,
    types := ⟨str "included", str ""⟩, description := none, modified := 0,
    homepage := none, repository := none, hlResult := ⟨none, none⟩ }

/-- Counterexample to C10 as stated: with the homepage absent but a
repository present, the homepage column (index 12) renders the repository
URL, not an empty string. -/
theorem formatResult_missing_field_cex :
    hitNoHomepage.homepage = none ∧
    (formatResult (columns false) hitNoHomepage).getD 12 [] = str "https://r" ∧
    (formatResult (columns false) hitNoHomepage).getD 12 [] ≠ str "" := by decide

/-- C10 (amended): formatting a record is total — one cell per catalog
column, never a failure — and an absent field renders as an empty string,
except that the homepage column falls back to the repository URL when a
repository is present. -/
theorem formatResult_fields (exact : Bool) (h : Hit) :
    (formatResult (columns exact) h).length = (columns exact).length ∧
    (h.description = none →
      (formatResult (columns exact) h).getD 7 [] = str "" ∧
      (formatResult (columns exact) h).getD 8 [] = str "" ∧
      (formatResult (columns exact) h).getD 9 [] = str "") ∧
    (h.homepage = none → h.repository = none →
      (formatResult (columns exact) h).getD 12 [] = str "") ∧
    (h.homepage = none → ∀ r, h.repository = some r →
      (formatResult (columns exact) h).getD 12 [] = r.url) ∧
    (h.repository = none → (formatResult (columns exact) h).getD 13 [] = str "") := by
  have e7 : (formatResult (columns exact) h).getD 7 []
      = decodeEntities (jsOrStr h.description (str "")) := rfl
  have e8 : (formatResult (columns exact) h).getD 8 []
      = decodeEntities (jsOrStr h.description (str "")) := rfl
  have e9 : (formatResult (columns exact) h).getD 9 []
      = decodeEntities (jsOrStr h.description (str "")) := rfl
  have e12 : (formatResult (columns exact) h).getD 12 []
      = jsOrStr h.homepage (match h.repository with
          | some r => r.url
          | none => str "") := rfl
  have e13 : (formatResult (columns exact) h).getD 13 []
      = (match h.repository with
          | some r => r.url
          | none => str "") := rfl
  refine ⟨by simp [formatResult], ?_, ?_, ?_, ?_⟩
  · intro hd
    rw [e7, e8, e9, hd]
    exact ⟨rfl, rfl, rfl⟩
  · intro hh hr
    rw [e12, hh, hr]
    rfl
  · intro hh r hr
    rw [e12, hh, hr]
    rfl
  · intro hr
    rw [e13, hr]

/-- Witness for C10's amended theorem: the all-absent record renders the
description, homepage and repo columns as empty cells. -/
theorem formatResult_fields_witness :
    (formatResult (columns false) hitAllAbsent).length = (columns false).length ∧
    (formatResult (columns false) hitAllAbsent).getD 7 [] = str "" ∧
    (formatResult (columns false) hitAllAbsent).getD 12 [] = str "" ∧
    (formatResult (columns false) hitAllAbsent).getD 13 [] = str "" := by
  have h := formatResult_fields false hitAllAbsent
  exact ⟨h.1, (h.2.1 rfl).1, h.2.2.1 rfl rfl, h.2.2.2.2 rfl⟩

theorem matchesAt_length_le {p : List PTok} {s : Str} (h : matchesAt p s = true) :
    p.length ≤ s.length := by
  induction p generalizing s with
  | nil => simp
  | cons t ps ih =>
    cases s with
    | nil => simp [matchesAt] at h
    | cons c cs =>
      rw [matchesAt, Bool.and_eq_true] at h
      simpa using ih h.2

theorem jsRepF_irrel (p : List PTok) (rep : Str) :
    ∀ f1 f2 (s : Str), s.length ≤ f1 → s.length ≤ f2 →
      jsRepF p rep f1 s = jsRepF p rep f2 s := by
  intro f1
  induction f1 with
  | zero =>
    intro f2 s h1 _
    have : s = [] := List.length_eq_zero.1 (Nat.le_zero.1 h1)
    subst this
    cases f2 <;> rfl
  | succ g ih =>
    intro f2 s h1 h2
    cases s with
    | nil => cases f2 <;> rfl
    | cons c cs =>
      cases f2 with
      | zero => simp at h2
      | succ g2 =>
        show (if matchesAt p (c :: cs) then _ else _) = (if matchesAt p (c :: cs) then _ else _)
        by_cases hm : matchesAt p (c :: cs) = true
        · rw [if_pos hm, if_pos hm]
          by_cases hp : p = []
          · rw [if_pos hp, if_pos hp]
            have hcs : cs.length ≤ g := by simpa using h1
            have hcs2 : cs.length ≤ g2 := by simpa using h2
            rw [ih g2 cs hcs hcs2]
          · rw [if_neg hp, if_neg hp]
            have hplen : 1 ≤ p.length := by
              cases p with
              | nil => exact absurd rfl hp
              | cons a l => simp
            have hlen : ((c :: cs).drop p.length).length ≤ g := by
              simp only [List.length_drop, List.length_cons]
              simp only [List.length_cons] at h1
              omega
            have hlen2 : ((c :: cs).drop p.length).length ≤ g2 := by
              simp only [List.length_drop, List.length_cons]
              simp only [List.length_cons] at h2
              omega
            rw [ih g2 _ hlen hlen2]
        · rw [if_neg hm, if_neg hm]
          have hcs : cs.length ≤ g := by simpa using h1
          have hcs2 : cs.length ≤ g2 := by simpa using h2
          rw [ih g2 cs hcs hcs2]

theorem jsReplaceAll_nil (p : List PTok) (rep : Str) :
    jsReplaceAll p rep [] = if p = [] then rep else [] := rfl

theorem jsReplaceAll_cons_match {p : List PTok} {c : Char} {cs : Str} (rep : Str)
    (hm : matchesAt p (c :: cs) = true) (hp : p ≠ []) :
    jsReplaceAll p rep (c :: cs)
      = rep ++ jsReplaceAll p rep ((c :: cs).drop p.length) := by
  have hplen : 1 ≤ p.length := by
    cases p with
    | nil => exact absurd rfl hp
    | cons a l => simp
  show jsRepF p rep (cs.length + 1) (c :: cs) = _
  show (if matchesAt p (c :: cs) then _ else _) = _
  rw [if_pos hm, if_neg hp, jsReplaceAll]
  congr 1
  apply jsRepF_irrel
  · simp only [List.length_drop, List.length_cons]
    omega
  · exact Nat.le_refl _

theorem jsReplaceAll_cons_nomatch {p : List PTok} {c : Char} {cs : Str} (rep : Str)
    (hm : matchesAt p (c :: cs) = false) :
    jsReplaceAll p rep (c :: cs) = c :: jsReplaceAll p rep cs := by
  show jsRepF p rep (cs.length + 1) (c :: cs) = _
  show (if matchesAt p (c :: cs) then _ else _) = _
  rw [if_neg (by simp [hm]), jsReplaceAll]

/-- Alternation of unmatched gaps and chunks: `weave g₀ [(o₁,g₁),(o₂,g₂)]`
is `g₀ ++ o₁ ++ g₁ ++ o₂ ++ g₂`. -/
def weave : Str → List (Str × Str) → Str
  | s, [] => s
  | s, (o, g) :: rest => s ++ o ++ weave g rest

theorem weave_cons (c : Char) (p0 : Str) (chunks : List (Str × Str)) :
    weave (c :: p0) chunks = c :: weave p0 chunks := by
  cases chunks with
  | nil => rfl
  | cons og rest =>
    obtain ⟨o, g⟩ := og
    simp [weave]

theorem matchesAt_take {p : List PTok} {s : Str} (h : matchesAt p s = true) :
    matchesAt p (s.take p.length) = true ∧ (s.take p.length).length = p.length := by
  constructor
  · induction p generalizing s with
    | nil => simp [matchesAt]
    | cons t ps ih =>
      cases s with
      | nil => simp [matchesAt] at h
      | cons c cs =>
        rw [matchesAt, Bool.and_eq_true] at h
        show matchesAt (t :: ps) (c :: cs.take ps.length) = true
        rw [matchesAt, Bool.and_eq_true]
        exact ⟨h.1, ih h.2⟩
  · rw [List.length_take]
    exact Nat.min_eq_left (matchesAt_length_le h)

theorem replace_decomp_aux (p : List PTok) (hp : p ≠ []) (rep : Str) :
    ∀ n (s : Str), s.length ≤ n →
      ∃ p0 chunks,
        s = weave p0 chunks ∧
        (∀ og ∈ chunks, matchesAt p og.1 = true ∧ og.1.length = p.length) ∧
        jsReplaceAll p rep s = weave p0 (chunks.map fun og => (rep, og.2)) := by
  intro n
  induction n with
  | zero =>
    intro s hlen
    have hs : s = [] := List.length_eq_zero.1 (Nat.le_zero.1 hlen)
    subst hs
    exact ⟨[], [], rfl, by simp, by rw [jsReplaceAll_nil, if_neg hp]; rfl⟩
  | succ m ih =>
    intro s hlen
    cases s with
    | nil => exact ⟨[], [], rfl, by simp, by rw [jsReplaceAll_nil, if_neg hp]; rfl⟩
    | cons c cs =>
      have hplen : 1 ≤ p.length := by
        cases p with
        | nil => exact absurd rfl hp
        | cons a l => simp
      by_cases hm : matchesAt p (c :: cs) = true
      · have hrestlen : ((c :: cs).drop p.length).length ≤ m := by
          simp only [List.length_drop, List.length_cons]
          simp only [List.length_cons] at hlen
          omega
        obtain ⟨p0', ch', hsplit, hchunks, hout⟩ := ih ((c :: cs).drop p.length) hrestlen
        obtain ⟨hmt, hml⟩ := matchesAt_take hm
        refine ⟨[], ((c :: cs).take p.length, p0') :: ch', ?_, ?_, ?_⟩
        · show c :: cs = [] ++ (c :: cs).take p.length ++ weave p0' ch'
          rw [← hsplit, List.nil_append, List.take_append_drop]
        · intro og hog
          rcases List.mem_cons.1 hog with rfl | hmem
          · exact ⟨hmt, hml⟩
          · exact hchunks og hmem
        · rw [jsReplaceAll_cons_match rep hm hp, hout]
          rfl
      · have hcslen : cs.length ≤ m := by
          simp only [List.length_cons] at hlen
          omega
        obtain ⟨p0', ch', hsplit, hchunks, hout⟩ := ih cs hcslen
        refine ⟨c :: p0', ch', ?_, hchunks, ?_⟩
        · rw [weave_cons, ← hsplit]
        · rw [jsReplaceAll_cons_nomatch rep (Bool.not_eq_true _ ▸ hm), hout, weave_cons]

/-- Structure of one global replace: the input splits into an alternation
of unmatched gaps and pattern matches, and the output is the same
alternation with each match replaced by `rep`. -/
theorem replace_decomp (p : List PTok) (hp : p ≠ []) (rep : Str) (s : Str) :
    ∃ p0 chunks,
      s = weave p0 chunks ∧
      (∀ og ∈ chunks, matchesAt p og.1 = true ∧ og.1.length = p.length) ∧
      jsReplaceAll p rep s = weave p0 (chunks.map fun og => (rep, og.2)) :=
  replace_decomp_aux p hp rep s.length s (Nat.le_refl _)

theorem jsReplaceAll_no_match (p : List PTok) (hp : p ≠ []) (rep : Str) :
    ∀ s : Str, anyMatch p s = false → jsReplaceAll p rep s = s := by
  intro s
  induction s with
  | nil =>
    intro _
    rw [jsReplaceAll_nil, if_neg hp]
  | cons c cs ih =>
    intro h
    rw [anyMatch, Bool.or_eq_false_iff] at h
    rw [jsReplaceAll_cons_nomatch rep h.1, ih h.2]

/-- Case-insensitive equality of two strings (ASCII lowering), used by the
claim-side literal-substring highlighter. -/
def ciEqStr (a b : Str) : Bool := a.map Char.toLower == b.map Char.toLower

/-- Fuel-indexed scanner behind `specWrapWord`. -/
def specWrapF (w : Str) : Nat → Str → Str
  | _, [] => []
  | 0, s => s
  | fuel + 1, c :: cs =>
    if !w.isEmpty && ciEqStr ((c :: cs).take w.length) w then
      bold ((c :: cs).take w.length) ++ specWrapF w fuel ((c :: cs).drop w.length)
    else c :: specWrapF w fuel cs

/-- Stated from the claim's words, for comparison with `highlightValue`:
wrap every case-insensitive occurrence of the word, treated as a literal
substring, in emphasis markers, leaving the occurrence's own characters
(and all others) unchanged. -/
def specWrapWord (w s : Str) : Str := specWrapF w s.length s

/-- Claim-side highlighter: like `highlightValue`, but the partial-match
branch wraps literal case-insensitive occurrences without rewriting them. -/
def specHighlight (val : Str) (hr : Option Description) : Str :=
  match hr with
  | none => val
  | some h =>
    if h.matchLevel = str "none" then val
    else if h.fullyHighlighted then bold val
    else h.matchedWords.foldl (fun v w => specWrapWord w v) val

/-- The claim-side replacement process for one compiled word: scanning
left to right, at a position where the pattern matches, the occurrence
(`p.length` characters) is consumed and replaced by `rep` — so every
leftmost occurrence is replaced — and at a position where no occurrence
starts, the character is copied unchanged. -/
inductive GreedyRep (p : List PTok) (rep : Str) : Str → Str → Prop where
  | nil : GreedyRep p rep [] []
  | repl {s out} : matchesAt p s = true →
      GreedyRep p rep (s.drop p.length) out → GreedyRep p rep s (rep ++ out)
  | skip {c cs out} : matchesAt p (c :: cs) = false →
      GreedyRep p rep cs out → GreedyRep p rep (c :: cs) (c :: out)

/-- The claim-side process for a list of matched words: each word's
replacement runs on the result of the previous one, in order. -/
inductive GreedyFold : List Str → Str → Str → Prop where
  | nil (v : Str) : GreedyFold [] v v
  | cons {w : Str} {ws : List Str} {v mid out : Str} :
      GreedyRep (compileWord w) (bold w) v mid →
      GreedyFold ws mid out → GreedyFold (w :: ws) v out

theorem matchesAt_nil_of_ne {p : List PTok} (hp : p ≠ []) :
    matchesAt p [] = false := by
  cases p with
  | nil => exact absurd rfl hp
  | cons t ps => rfl

theorem greedyRep_total_aux (p : List PTok) (rep : Str) (hp : p ≠ []) :
    ∀ n (s : Str), s.length ≤ n → GreedyRep p rep s (jsReplaceAll p rep s) := by
  intro n
  induction n with
  | zero =>
    intro s hlen
    have hs : s = [] := List.length_eq_zero.1 (Nat.le_zero.1 hlen)
    subst hs
    rw [jsReplaceAll_nil, if_neg hp]
    exact GreedyRep.nil
  | succ m ih =>
    intro s hlen
    cases s with
    | nil =>
      rw [jsReplaceAll_nil, if_neg hp]
      exact GreedyRep.nil
    | cons c cs =>
      have hplen : 1 ≤ p.length := by
        cases p with
        | nil => exact absurd rfl hp
        | cons a l => simp
      by_cases hm : matchesAt p (c :: cs) = true
      · rw [jsReplaceAll_cons_match rep hm hp]
        refine GreedyRep.repl hm (ih _ ?_)
        simp only [List.length_drop, List.length_cons]
        simp only [List.length_cons] at hlen
        omega
      · have hm2 : matchesAt p (c :: cs) = false := by simpa using hm
        rw [jsReplaceAll_cons_nomatch rep hm2]
        refine GreedyRep.skip hm2 (ih cs ?_)
        simp only [List.length_cons] at hlen
        omega

/-- The program's scanner realizes the greedy every-occurrence
replacement process. -/
theorem greedyRep_jsReplaceAll (p : List PTok) (rep : Str) (hp : p ≠ []) (s : Str) :
    GreedyRep p rep s (jsReplaceAll p rep s) :=
  greedyRep_total_aux p rep hp s.length s (Nat.le_refl _)

/-- For a nonempty pattern the greedy replacement process has exactly one
output, so it pins the scanner's behavior completely. -/
theorem greedyRep_unique {p : List PTok} {rep : Str} (hp : p ≠ []) :
    ∀ {s o1 o2 : Str}, GreedyRep p rep s o1 → GreedyRep p rep s o2 → o1 = o2 := by
  intro s o1 o2 h1
  induction h1 generalizing o2 with
  | nil =>
    intro h2
    cases h2 with
    | nil => rfl
    | repl hm _ => exact absurd hm (by simp [matchesAt_nil_of_ne hp])
  | repl hm hrec ih =>
    intro h2
    cases h2 with
    | nil => exact absurd hm (by simp [matchesAt_nil_of_ne hp])
    | repl hm2 hrec2 => rw [ih hrec2]
    | skip hm2 _ => exact absurd hm (by simp [hm2])
  | skip hm hrec ih =>
    intro h2
    cases h2 with
    | repl hm2 _ => exact absurd hm2 (by simp [hm])
    | skip hm2 hrec2 => rw [ih hrec2]

theorem greedyFold_foldl :
    ∀ (ws : List Str) (v : Str), (∀ w ∈ ws, w ≠ []) →
      GreedyFold ws v
        (ws.foldl (fun v w => jsReplaceAll (compileWord w) (bold w) v) v) := by
  intro ws
  induction ws with
  | nil => intro v _; exact GreedyFold.nil v
  | cons w rest ih =>
    intro v hws
    have hne : w ≠ [] := hws w (List.mem_cons_self _ _)
    have hcw : compileWord w ≠ [] := by
      cases w with
      | nil => exact absurd rfl hne
      | cons a l => simp [compileWord]
    exact GreedyFold.cons (greedyRep_jsReplaceAll (compileWord w) (bold w) hcw v)
      (ih _ fun w2 hw2 => hws w2 (List.mem_cons_of_mem _ hw2))

theorem greedyFold_unique :
    ∀ (ws : List Str), (∀ w ∈ ws, w ≠ []) →
      ∀ {v o1 o2 : Str}, GreedyFold ws v o1 → GreedyFold ws v o2 → o1 = o2 := by
  intro ws
  induction ws with
  | nil =>
    intro _ v o1 o2 h1 h2
    cases h1
    cases h2
    rfl
  | cons w rest ih =>
    intro hws v o1 o2 h1 h2
    have hne : w ≠ [] := hws w (List.mem_cons_self _ _)
    have hcw : compileWord w ≠ [] := by
      cases w with
      | nil => exact absurd rfl hne
      | cons a l => simp [compileWord]
    cases h1 with
    | cons hr1 hf1 =>
      cases h2 with
      | cons hr2 hf2 =>
        have hmid := greedyRep_unique hcw hr1 hr2
        rw [← hmid] at hf2
        exact ih (fun w2 hw2 => hws w2 (List.mem_cons_of_mem _ hw2)) hf1 hf2

theorem foldl_replace_no_match :
    ∀ (ws : List Str) (v : Str),
      (∀ w ∈ ws, w ≠ [] ∧ anyMatch (compileWord w) v = false) →
      ws.foldl (fun v w => jsReplaceAll (compileWord w) (bold w) v) v = v := by
  intro ws
  induction ws with
  | nil => intro v _; rfl
  | cons w rest ih =>
    intro v hws
    obtain ⟨hne, hnm⟩ := hws w (List.mem_cons_self _ _)
    have hcw : compileWord w ≠ [] := by
      cases w with
      | nil => exact absurd rfl hne
      | cons a l => simp [compileWord]
    have hstep : jsReplaceAll (compileWord w) (bold w) v = v :=
      jsReplaceAll_no_match _ hcw _ v hnm
    show List.foldl _ (jsReplaceAll (compileWord w) (bold w) v) rest = v
    rw [hstep]
    exact ih v fun w2 hw2 => hws w2 (List.mem_cons_of_mem _ hw2)

/-- Counterexample to C5 as stated: on value `Foo` with matched word
`foo`, the program substitutes the emphasized word in the word's own
casing (`foo`), while wrapping the occurrence as a literal substring
would keep `Foo`; the two results differ. -/
theorem highlightValue_literal_cex :
    highlightValue (str "Foo") (some ⟨str "Foo", str "partial", false, [str "foo"]⟩)
      = bold (str "foo") ∧
    specHighlight (str "Foo") (some ⟨str "Foo", str "partial", false, [str "foo"]⟩)
      = bold (str "Foo") ∧
    highlightValue (str "Foo") (some ⟨str "Foo", str "partial", false, [str "foo"]⟩)
      ≠ specHighlight (str "Foo") (some ⟨str "Foo", str "partial", false, [str "foo"]⟩) := by
  decide

/-- C5 (amended): an absent or no-match annotation leaves the value
unchanged; a full match wraps the whole value in emphasis; otherwise each
matched word, in order, is compiled to a case-insensitive JS regex and
run over the previous result by the greedy process that replaces every
leftmost occurrence with the emphasized word itself (in the word's own
casing — not the occurrence's) and copies every character at which no
occurrence starts: the output is exactly the unique result of that
process, a value without any occurrence of any word is returned
unchanged, and for a single nonempty word the value splits into an
alternation of unchanged gaps and pattern matches with each match
replaced by the emphasized word. -/
theorem highlightValue_spec (val : Str) :
    highlightValue val none = val ∧
    (∀ h : Description, h.matchLevel = str "none" → highlightValue val (some h) = val) ∧
    (∀ h : Description, h.matchLevel ≠ str "none" → h.fullyHighlighted = true →
      highlightValue val (some h) = bold val) ∧
    (∀ h : Description, h.matchLevel ≠ str "none" → h.fullyHighlighted = false →
      (∀ w ∈ h.matchedWords, w ≠ []) →
      GreedyFold h.matchedWords val (highlightValue val (some h)) ∧
      (∀ out, GreedyFold h.matchedWords val out → out = highlightValue val (some h)) ∧
      ((∀ w ∈ h.matchedWords, anyMatch (compileWord w) val = false) →
        highlightValue val (some h) = val)) ∧
    (∀ h : Description, h.matchLevel ≠ str "none" → h.fullyHighlighted = false →
      ∀ w, h.matchedWords = [w] → w ≠ [] →
        ∃ p0 chunks, val = weave p0 chunks ∧
          (∀ og ∈ chunks,
            matchesAt (compileWord w) og.1 = true ∧ og.1.length = w.length) ∧
          highlightValue val (some h) = weave p0 (chunks.map fun og => (bold w, og.2))) := by
  refine ⟨rfl, ?_, ?_, ?_, ?_⟩
  · intro h hl
    simp [highlightValue, hl]
  · intro h hl hf
    simp [highlightValue, hl, hf]
  · intro h hl hf hws
    have hfold : highlightValue val (some h)
        = h.matchedWords.foldl
            (fun v w => jsReplaceAll (compileWord w) (bold w) v) val := by
      simp [highlightValue, hl, hf]
    refine ⟨?_, ?_, ?_⟩
    · rw [hfold]
      exact greedyFold_foldl h.matchedWords val hws
    · intro out hout
      exact greedyFold_unique h.matchedWords hws hout
        (hfold ▸ greedyFold_foldl h.matchedWords val hws)
    · intro hnm
      rw [hfold]
      exact foldl_replace_no_match h.matchedWords val
        fun w hw => ⟨hws w hw, hnm w hw⟩
  · intro h hl hf w hw hne
    have hcw : compileWord w ≠ [] := by
      cases w with
      | nil => exact absurd rfl hne
      | cons a l => simp [compileWord]
    have hval : highlightValue val (some h)
        = jsReplaceAll (compileWord w) (bold w) val := by
      simp [highlightValue, hl, hf, hw]
    obtain ⟨p0, chunks, h1, h2, h3⟩ := replace_decomp (compileWord w) hcw (bold w) val
    refine ⟨p0, chunks, h1, ?_, by rw [hval, h3]⟩
    intro og hog
    obtain ⟨hm, hlen⟩ := h2 og hog
    exact ⟨hm, by simpa [compileWord] using hlen⟩

/-- Witness for C5's amended theorem: a fully-matched value is wrapped
whole; a partial match of `q` over `xy` follows the greedy process, and
as the word does not occur the value is returned unchanged. -/
theorem highlightValue_spec_witness :
    highlightValue (str "ab") (some ⟨str "ab", str "full", true, []⟩) = bold (str "ab") ∧
    GreedyFold [str "q"] (str "xy")
      (highlightValue (str "xy") (some ⟨str "xy", str "partial", false, [str "q"]⟩)) ∧
    highlightValue (str "xy") (some ⟨str "xy", str "partial", false, [str "q"]⟩)
      = str "xy" := by
  have h1 := highlightValue_spec (str "ab")
  have h2 := highlightValue_spec (str "xy")
  have hpart := h2.2.2.2.1 ⟨str "xy", str "partial", false, [str "q"]⟩
    (by decide) rfl (by decide)
  exact ⟨h1.2.2.1 ⟨str "ab", str "full", true, []⟩ (by decide) rfl,
    hpart.1, hpart.2.2 (by decide)⟩

theorem visAux_append_of_noEsc {a : Str} (h : escChar ∉ a) (t : Str) :
    visibleLenAux false (a ++ t) = a.length + visibleLenAux false t := by
  induction a with
  | nil => simp
  | cons c r ih =>
    have hc : c ≠ escChar := fun e => h (e ▸ List.mem_cons_self c r)
    have hr : escChar ∉ r := fun e => h (List.mem_cons_of_mem c e)
    show (if c = escChar then _ else _) = _
    rw [if_neg hc]
    simp only [List.append_eq]
    rw [ih hr]
    simp only [List.length_cons]
    omega

theorem visAux_boldOn (t : Str) :
    visibleLenAux false (boldOn ++ t) = visibleLenAux false t := rfl

theorem visAux_boldOff (t : Str) :
    visibleLenAux false (boldOff ++ t) = visibleLenAux false t := rfl

theorem vis_bold_of_noEsc {s : Str} (h : escChar ∉ s) (t : Str) :
    visibleLenAux false (bold s ++ t) = s.length + visibleLenAux false t := by
  have e : bold s ++ t = boldOn ++ (s ++ (boldOff ++ t)) := by
    simp [bold]
  rw [e, visAux_boldOn, visAux_append_of_noEsc h, visAux_boldOff]

theorem mem_weave_p0 {c : Char} {p0 : Str} {chunks : List (Str × Str)}
    (h : c ∈ p0) : c ∈ weave p0 chunks := by
  cases chunks with
  | nil => exact h
  | cons og rest =>
    obtain ⟨o, g⟩ := og
    show c ∈ p0 ++ o ++ weave g rest
    simp [h]

theorem mem_weave_chunk {c : Char} :
    ∀ {chunks : List (Str × Str)} {p0 : Str} (og : Str × Str), og ∈ chunks →
      (c ∈ og.1 ∨ c ∈ og.2) → c ∈ weave p0 chunks := by
  intro chunks
  induction chunks with
  | nil =>
    intro p0 og h
    cases h
  | cons hd rest ih =>
    intro p0 og hog hc
    obtain ⟨o, g⟩ := hd
    show c ∈ p0 ++ o ++ weave g rest
    rcases List.mem_cons.1 hog with rfl | hmem
    · rcases hc with hc | hc
      · simp [hc]
      · have : c ∈ weave g rest := mem_weave_p0 hc
        simp [this]
    · have : c ∈ weave g rest := ih og hmem hc
      simp [this]

theorem vis_weave (w : Str) (hw : escChar ∉ w) :
    ∀ (chunks : List (Str × Str)) (p0 : Str), escChar ∉ p0 →
      (∀ og ∈ chunks, escChar ∉ og.2 ∧ og.1.length = w.length) →
      visibleLenAux false (weave p0 (chunks.map fun og => (bold w, og.2)))
        = (weave p0 chunks).length := by
  intro chunks
  induction chunks with
  | nil =>
    intro p0 hp0 _
    show visibleLenAux false p0 = p0.length
    simpa using visAux_append_of_noEsc hp0 []
  | cons og rest ih =>
    intro p0 hp0 hch
    obtain ⟨o, g⟩ := og
    obtain ⟨hg, hol⟩ := hch (o, g) (List.mem_cons_self _ _)
    have hol2 : o.length = w.length := hol
    have hrest : ∀ og ∈ rest, escChar ∉ og.2 ∧ og.1.length = w.length :=
      fun og hog => hch og (List.mem_cons_of_mem _ hog)
    show visibleLenAux false (p0 ++ bold w ++ weave g (rest.map fun og => (bold w, og.2)))
      = (p0 ++ o ++ weave g rest).length
    rw [List.append_assoc, visAux_append_of_noEsc hp0, vis_bold_of_noEsc hw,
      ih g hg hrest]
    simp only [List.length_append]
    omega

/-- Counterexample to C4 as stated: on value `am` with matched words `a`
then `m`, the second replacement rewrites inside the escape codes the
first inserted, and the visible length of the highlighted cell is 4, not
the input's 2. -/
theorem highlightValue_visible_len_cex :
    (str "am").length = 2 ∧
    visibleLen (highlightValue (str "am")
      (some ⟨str "am", str "partial", false, [str "a", str "m"]⟩)) = 4 := by
  decide

/-- C4 (amended): highlighting preserves the visible character count of a
cell free of escape characters whenever the annotation is absent, a
no-match, a full match, or a partial match with a single nonempty matched
word itself free of escape characters (several matched words can corrupt
the emphasis codes inserted for earlier words and change the visible
length). -/
theorem highlightValue_visible_len (val : Str) (hr : Option Description)
    (hval : escChar ∉ val)
    (hgood : hr = none ∨ ∃ h : Description, hr = some h ∧
      (h.matchLevel = str "none" ∨ h.fullyHighlighted = true ∨
        (h.fullyHighlighted = false ∧
          ∃ w, h.matchedWords = [w] ∧ w ≠ [] ∧ escChar ∉ w))) :
    visibleLen (highlightValue val hr) = val.length := by
  have hvis_val : visibleLen val = val.length := by
    show visibleLenAux false val = val.length
    simpa using visAux_append_of_noEsc hval []
  have hvis_bold : visibleLen (bold val) = val.length := by
    show visibleLenAux false (bold val) = val.length
    have := vis_bold_of_noEsc hval []
    rw [List.append_nil] at this
    simpa using this
  rcases hgood with rfl | ⟨h, rfl, hcase⟩
  · exact hvis_val
  rcases hcase with hlev | hful | ⟨hful, w, hw, hne, hwesc⟩
  · simp only [highlightValue, if_pos hlev]
    exact hvis_val
  · by_cases hl : h.matchLevel = str "none"
    · simp only [highlightValue, if_pos hl]
      exact hvis_val
    · simp only [highlightValue, if_neg hl, if_pos hful]
      exact hvis_bold
  · by_cases hl : h.matchLevel = str "none"
    · simp only [highlightValue, if_pos hl]
      exact hvis_val
    · have hcw : compileWord w ≠ [] := by
        cases w with
        | nil => exact absurd rfl hne
        | cons a l => simp [compileWord]
      have hval' : highlightValue val (some h)
          = jsReplaceAll (compileWord w) (bold w) val := by
        simp [highlightValue, hl, hful, hw]
      obtain ⟨p0, chunks, h1, h2, h3⟩ := replace_decomp (compileWord w) hcw (bold w) val
      have hp0 : escChar ∉ p0 := fun hc => hval (h1 ▸ mem_weave_p0 hc)
      have hch : ∀ og ∈ chunks, escChar ∉ og.2 ∧ og.1.length = w.length := fun og hog =>
        ⟨fun hc => hval (h1 ▸ mem_weave_chunk og hog (Or.inr hc)),
          by simpa [compileWord] using (h2 og hog).2⟩
      rw [hval', h3]
      show visibleLenAux false _ = _
      rw [vis_weave w hwesc chunks p0 hp0 hch, ← h1]

/-- Witness for C4's amended theorem: highlighting `Foo` with the single
matched word `fo` keeps the visible length at 3. -/
theorem highlightValue_visible_len_witness :
    visibleLen (highlightValue (str "Foo")
      (some ⟨str "Foo", str "partial", false, [str "fo"]⟩)) = (str "Foo").length :=
  highlightValue_visible_len (str "Foo")
    (some ⟨str "Foo", str "partial", false, [str "fo"]⟩) (by decide)
    (Or.inr ⟨⟨str "Foo", str "partial", false, [str "fo"]⟩, rfl,
      Or.inr (Or.inr ⟨rfl, str "fo", rfl, by decide, by decide⟩)⟩)

instance : Inhabited Column := ⟨{ header := [], format := fun _ => [], importance := 0 }⟩

/-- The per-column cell lists built by `printTable` (src/index.ts:243–245):
the upper-cased header first, then each row's cell for that column. -/
def colCells (cols : List Column) (rows : List (List Str)) : List (List Str) :=
  cols.mapIdx fun j c => c.header.map Char.toUpper :: rows.map fun r => r.getD j []

/-- Formatted per-column cell lists (src/index.ts:246). -/
def formattedCols (cols : List Column) (rows : List (List Str)) : List (List Str) :=
  (colCells cols rows).mapIdx fun j c => formatColumn c (cols.getD j default)

/-- The widths handed to `pickColumns` (src/index.ts:247): the length of
each column's formatted header cell. -/
def colWidths (cols : List Column) (rows : List (List Str)) : List Nat :=
  (formattedCols cols rows).map fun c => (c.getD 0 []).length

/-- The selected columns' cell lists with the highlight overlay applied
(src/index.ts:249–257): a column without a highlighter passes through;
one with a highlighter keeps cell 0 (the header) and maps every data cell
through the highlighter with its record. -/
def pickedEntry (cols : List Column) (rows : List (List Str)) (hits : List Hit)
    (i : Fin cols.length) : List Str :=
  match (cols.get i).highlight with
  | none => (formattedCols cols rows).getD i []
  | some hl => ((formattedCols cols rows).getD i []).mapIdx fun j v =>
      if 0 < j then hl v (hits.getD (j - 1) default) else v

def pickedCols (cols : List Column) (termCols : Option Nat) (rows : List (List Str))
    (hits : List Hit) : List (List Str) :=
  (pickColumns cols (colWidths cols rows) termCols).map (pickedEntry cols rows hits)

/-- JS `Array.prototype.join(' ')`. -/
def joinSpace : List Str → Str
  | [] => []
  | [s] => s
  | s :: rest => s ++ ' ' :: joinSpace rest

/-- The lines `printTable` writes (src/index.ts:259–262): for each index
0 … rows.length, the selected columns' cells at that index joined with a
single space. -/
def printTable (cols : List Column) (termCols : Option Nat) (rows : List (List Str))
    (hits : List Hit) : List Str :=
  (List.range (rows.length + 1)).map fun i =>
    joinSpace ((pickedCols cols termCols rows hits).map fun c => c.getD i [])

/-- The cell of record `r` in selected column `i`, after alignment and
(for a highlighter column) the highlight overlay. -/
def dataCell (cols : List Column) (rows : List (List Str)) (hits : List Hit)
    (i : Fin cols.length) (r : Nat) : Str :=
  match (cols.get i).highlight with
  | none => ((formattedCols cols rows).getD i []).getD (r + 1) []
  | some hl => hl (((formattedCols cols rows).getD i []).getD (r + 1) [])
      (hits.getD r default)

/-- The run options read from the command line (src/index.ts:13–25),
as far as the core consumes them. -/
structure Opts where
  npm : Bool
  yarn : Bool
  num : Nat
  exact : Bool
  repo : Bool
  debug : Bool
  bundled : Bool
  dt : Bool
  untyped : Bool

/-- Embedding of `adjustImportance` (src/index.ts:265–276), reframed as a
pure step: set the importance of every column with the given header,
failing when no column carries it. -/
def adjustImportance (cols : List Column) (header : Str) (newImp : Int) :
    Except Str (List Column) :=
  if cols.any fun c => decide (c.header = header) then
    Except.ok (cols.map fun c =>
      if c.header = header then { c with importance := newImp } else c)
  else Except.error (str "Unable to find column with header " ++ header)

/-- The search filter strings (src/index.ts:40–48). -/
def IS_DT : Str := str "types.ts:\"definitely-typed\""

def IS_INCLUDED : Str := str "types.ts:\"included\""

def NOT_TYPES : Str := str "NOT owner.name:DefinitelyTyped"

def FILTERS_default : Str :=
  str "(" ++ IS_DT ++ str " OR " ++ IS_INCLUDED ++ str ") AND " ++ NOT_TYPES

def FILTERS_dt : Str := IS_DT

def FILTERS_bundled : Str := IS_INCLUDED ++ str " AND " ++ NOT_TYPES

def FILTERS_untyped : Str := NOT_TYPES

/-- The error thrown for conflicting filter options: JS renders
`May only specify one of ${['untyped','dt','bundled']}`. -/
def conflictMsg : Str := str "May only specify one of untyped,dt,bundled"

/-- Embedding of `applyFlags` (src/index.ts:278–309): apply the
importance overrides for the install/repo options, then fail if more than
one of the mutually exclusive filter options is requested, otherwise pick
the filter string. -/
def applyFlags (opts : Opts) (cols : List Column) : Except Str (List Column × Str) := do
  let cols1 ← if opts.yarn then adjustImportance cols (str "yarn") 1000 else pure cols
  let cols2 ← if opts.npm then adjustImportance cols1 (str "npm") 1000 else pure cols1
  let cols3 ← if opts.yarn || opts.npm then adjustImportance cols2 (str "types") 25
    else pure cols2
  let cols4 ← if opts.repo then do
      let t ← adjustImportance cols3 (str "repo") 1000
      adjustImportance t (str "homepage") (-1)
    else pure cols3
  if (if opts.untyped then 1 else 0) + (if opts.dt then 1 else 0)
      + (if opts.bundled then 1 else 0) > 1 then
    Except.error conflictMsg
  else
    pure (cols4,
      if opts.untyped then FILTERS_untyped
      else if opts.dt then FILTERS_dt
      else if opts.bundled then FILTERS_bundled
      else FILTERS_default)

/-- Embedding of the main run (src/index.ts:311–349) as far as table
output is concerned: flags are applied before any search or formatting,
zero hits render no table lines, and otherwise the formatted table is
printed with the adjusted catalog. -/
def runMain (opts : Opts) (termCols : Option Nat) (hits : List Hit) :
    Except Str (List Str) := do
  let pair ← applyFlags opts (columns opts.exact)
  if hits.length = 0 then pure []
  else pure (printTable pair.1 termCols (hits.map (formatResult pair.1)) hits)

/-- Whether `needle` is a prefix of `hay`, character by character. -/
def startsWith : Str → Str → Bool
  | [], _ => true
  | _ :: _, [] => false
  | a :: as, b :: bs => a = b && startsWith as bs

/-- Whether `needle` occurs contiguously inside `hay`. -/
def containsSub (needle : Str) : Str → Bool
  | [] => startsWith needle []
  | c :: t => startsWith needle (c :: t) || containsSub needle t

theorem formattedCols_get (cols : List Column) (rows : List (List Str))
    (i : Fin cols.length) :
    (formattedCols cols rows).getD i.val []
      = formatColumn
          ((cols.get i).header.map Char.toUpper :: rows.map fun r => r.getD i.val [])
          (cols.getD i.val default) := by
  have hcc_len : (colCells cols rows).length = cols.length := List.length_mapIdx
  have hfc_len : (formattedCols cols rows).length = cols.length := by
    rw [formattedCols, List.length_mapIdx, hcc_len]
  have hi : i.val < (formattedCols cols rows).length := by
    rw [hfc_len]
    exact i.isLt
  have hic : i.val < (colCells cols rows).length := by
    rw [hcc_len]
    exact i.isLt
  rw [List.getD_eq_getElem?_getD, List.getElem?_eq_getElem hi, Option.getD_some]
  show (formattedCols cols rows).get ⟨i.val, hi⟩ = _
  have hstep : (formattedCols cols rows).get ⟨i.val, hi⟩
      = formatColumn ((colCells cols rows).get ⟨i.val, hic⟩) (cols.getD i.val default) :=
    List.get_mapIdx _ _ i.val hic
  rw [hstep]
  have hstep2 : (colCells cols rows).get ⟨i.val, hic⟩
      = (cols.get i).header.map Char.toUpper :: rows.map fun r => r.getD i.val [] := by
    have := List.get_mapIdx cols
      (fun j c => c.header.map Char.toUpper :: rows.map fun r => r.getD j []) i.val i.isLt
    exact this
  rw [hstep2]

theorem formattedCols_entry_length (cols : List Column) (rows : List (List Str))
    (i : Fin cols.length) :
    ((formattedCols cols rows).getD i.val []).length = rows.length + 1 := by
  rw [formattedCols_get]
  simp [formatColumn]

/-- C7: the table renders exactly one header line followed by one line
per record, in the input order, each line joining the selected columns'
cells with a single space; and a zero-record run (whose flags are valid)
renders zero table lines. -/
theorem printTable_lines (cols : List Column) (termCols : Option Nat)
    (rows : List (List Str)) (hits : List Hit) :
    (printTable cols termCols rows hits).length = rows.length + 1 ∧
    (printTable cols termCols rows hits
      = joinSpace ((pickedCols cols termCols rows hits).map fun c => c.getD 0 [])
        :: ((List.range rows.length).map fun r =>
            joinSpace ((pickColumns cols (colWidths cols rows) termCols).map
              fun i => dataCell cols rows hits i r))) ∧
    ∀ (opts : Opts) (tc : Option Nat) x,
      applyFlags opts (columns opts.exact) = Except.ok x →
      runMain opts tc [] = Except.ok [] := by
  refine ⟨by simp [printTable], ?_, ?_⟩
  · rw [printTable, List.range_succ_eq_map, List.map_cons, List.map_map]
    congr 1
    apply List.map_congr_left
    intro r hr
    have hrlt : r < rows.length := List.mem_range.1 hr
    show joinSpace ((pickedCols cols termCols rows hits).map fun c => c.getD (r + 1) []) = _
    rw [pickedCols, List.map_map]
    congr 1
    apply List.map_congr_left
    intro i _
    show (match (cols.get i).highlight with
      | none => (formattedCols cols rows).getD i.val []
      | some hl => ((formattedCols cols rows).getD i.val []).mapIdx fun j v =>
          if 0 < j then hl v (hits.getD (j - 1) default) else v).getD (r + 1) []
      = dataCell cols rows hits i r
    have hflen : ((formattedCols cols rows).getD i.val []).length = rows.length + 1 :=
      formattedCols_entry_length cols rows i
    cases hhl : (cols.get i).highlight with
    | none =>
      rw [dataCell, hhl]
    | some hl =>
      rw [dataCell, hhl]
      have hlt : r + 1 < ((formattedCols cols rows).getD i.val []).length := by
        omega
      have hltm : r + 1 <
          (((formattedCols cols rows).getD i.val []).mapIdx fun j v =>
            if 0 < j then hl v (hits.getD (j - 1) default) else v).length := by
        rw [List.length_mapIdx]
        exact hlt
      rw [List.getD_eq_getElem?_getD, List.getElem?_eq_getElem hltm, Option.getD_some]
      show (((formattedCols cols rows).getD i.val []).mapIdx fun j v =>
          if 0 < j then hl v (hits.getD (j - 1) default) else v).get ⟨r + 1, hltm⟩ = _
      rw [List.get_mapIdx _ _ (r + 1) hlt]
      rw [if_pos (Nat.succ_pos r)]
      congr 1
      · have heq : ((formattedCols cols rows).getD i.val []).getD (r + 1) []
            = ((formattedCols cols rows).getD i.val []).get ⟨r + 1, hlt⟩ := by
          rw [List.getD_eq_getElem?_getD, List.getElem?_eq_getElem hlt]
          rfl
        rw [heq]
  · intro opts tc x hok
    simp [runMain, hok]

theorem matchesAt_append_right {p : List PTok} {s : Str} (h : matchesAt p s = true)
    (t : Str) : matchesAt p (s ++ t) = true := by
  induction p generalizing s with
  | nil => simp [matchesAt]
  | cons tk ps ih =>
    cases s with
    | nil => simp [matchesAt] at h
    | cons c cs =>
      rw [matchesAt, Bool.and_eq_true] at h
      show matchesAt (tk :: ps) (c :: (cs ++ t)) = true
      rw [matchesAt, Bool.and_eq_true]
      exact ⟨h.1, ih h.2⟩

theorem matchesAt_append_spaces {p : List PTok}
    (hsp : ∀ tk ∈ p, tokMatches tk ' ' = false) :
    ∀ {s : Str} {k : Nat}, matchesAt p (s ++ List.replicate k ' ') = true →
      p.length ≤ s.length ∧ matchesAt p s = true := by
  induction p with
  | nil => intro s k _; simp [matchesAt]
  | cons tk ps ih =>
    intro s k h
    cases s with
    | nil =>
      exfalso
      cases k with
      | zero => simp [matchesAt] at h
      | succ m =>
        rw [List.nil_append, List.replicate_succ, matchesAt, Bool.and_eq_true] at h
        exact absurd h.1 (by simp [hsp tk (List.mem_cons_self _ _)])
    | cons c cs =>
      rw [List.cons_append, matchesAt, Bool.and_eq_true] at h
      have hsp' : ∀ tk ∈ ps, tokMatches tk ' ' = false :=
        fun tk2 htk => hsp tk2 (List.mem_cons_of_mem _ htk)
      obtain ⟨hle, hm⟩ := ih hsp' h.2
      refine ⟨by simpa using Nat.succ_le_succ hle, ?_⟩
      rw [matchesAt, Bool.and_eq_true]
      exact ⟨h.1, hm⟩

theorem jsReplaceAll_spaces {p : List PTok} (hp : p ≠ [])
    (hsp : ∀ tk ∈ p, tokMatches tk ' ' = false) (rep : Str) :
    ∀ k, jsReplaceAll p rep (List.replicate k ' ') = List.replicate k ' ' := by
  intro k
  induction k with
  | zero => rw [List.replicate_zero, jsReplaceAll_nil, if_neg hp]
  | succ m ih =>
    rw [List.replicate_succ]
    have hm : matchesAt p (' ' :: List.replicate m ' ') = false := by
      cases p with
      | nil => exact absurd rfl hp
      | cons tk ps =>
        rw [matchesAt]
        simp [hsp tk (List.mem_cons_self _ _)]
    rw [jsReplaceAll_cons_nomatch rep hm, ih]

theorem jsReplaceAll_append_spaces {p : List PTok} (hp : p ≠ [])
    (hsp : ∀ tk ∈ p, tokMatches tk ' ' = false) (rep : Str) (k : Nat) :
    ∀ n (s : Str), s.length ≤ n →
      jsReplaceAll p rep (s ++ List.replicate k ' ')
        = jsReplaceAll p rep s ++ List.replicate k ' ' := by
  intro n
  induction n with
  | zero =>
    intro s hlen
    have hs : s = [] := List.length_eq_zero.1 (Nat.le_zero.1 hlen)
    subst hs
    rw [List.nil_append, jsReplaceAll_spaces hp hsp rep k, jsReplaceAll_nil, if_neg hp,
      List.nil_append]
  | succ m ih =>
    intro s hlen
    cases s with
    | nil =>
      rw [List.nil_append, jsReplaceAll_spaces hp hsp rep k, jsReplaceAll_nil, if_neg hp,
        List.nil_append]
    | cons c cs =>
      have hplen : 1 ≤ p.length := by
        cases p with
        | nil => exact absurd rfl hp
        | cons a l => simp
      by_cases hm : matchesAt p (c :: cs) = true
      · have hple : p.length ≤ (c :: cs).length := matchesAt_length_le hm
        have hm2 : matchesAt p ((c :: cs) ++ List.replicate k ' ') = true :=
          matchesAt_append_right hm _
        rw [List.cons_append] at hm2
        rw [List.cons_append, jsReplaceAll_cons_match rep hm2 hp, ← List.cons_append,
          List.drop_append_of_le_length hple]
        have hdlen : ((c :: cs).drop p.length).length ≤ m := by
          simp only [List.length_drop, List.length_cons]
          simp only [List.length_cons] at hlen
          omega
        rw [ih _ hdlen, jsReplaceAll_cons_match rep hm hp, List.append_assoc]
      · have hm2 : matchesAt p ((c :: cs) ++ List.replicate k ' ') = false := by
          cases htest : matchesAt p ((c :: cs) ++ List.replicate k ' ') with
          | false => rfl
          | true => exact absurd (matchesAt_append_spaces hsp htest).2 (by simp [hm])
        rw [List.cons_append] at hm2
        rw [List.cons_append, jsReplaceAll_cons_nomatch rep hm2]
        have hcslen : cs.length ≤ m := by
          simp only [List.length_cons] at hlen
          omega
        rw [ih _ hcslen, jsReplaceAll_cons_nomatch rep (by simpa using hm)]
        rfl

theorem highlight_fold_spaces :
    ∀ (ws : List Str) (v : Str) (k : Nat),
      (∀ w ∈ ws, w ≠ [] ∧ ∀ tk ∈ compileWord w, tokMatches tk ' ' = false) →
      ws.foldl (fun v w => jsReplaceAll (compileWord w) (bold w) v)
          (v ++ List.replicate k ' ')
        = ws.foldl (fun v w => jsReplaceAll (compileWord w) (bold w) v) v
            ++ List.replicate k ' ' := by
  intro ws
  induction ws with
  | nil => intro v k _; rfl
  | cons w rest ih =>
    intro v k hws
    obtain ⟨hne, hsp⟩ := hws w (List.mem_cons_self _ _)
    have hcw : compileWord w ≠ [] := by
      cases w with
      | nil => exact absurd rfl hne
      | cons a l => simp [compileWord]
    have hstep : jsReplaceAll (compileWord w) (bold w) (v ++ List.replicate k ' ')
        = jsReplaceAll (compileWord w) (bold w) v ++ List.replicate k ' ' :=
      jsReplaceAll_append_spaces hcw hsp (bold w) k v.length v (Nat.le_refl _)
    show List.foldl _ (jsReplaceAll (compileWord w) (bold w) (v ++ List.replicate k ' ')) rest = _
    rw [hstep]
    exact ih _ k fun w2 hw2 => hws w2 (List.mem_cons_of_mem _ hw2)

/-- Counterexample to C6 as stated: in the real pipeline, a record whose
name is fully matched has its padded cell wrapped whole — the two padding
spaces end up inside the emphasis markers, not outside them. -/
def cexCols : List Column := [
  { header := str "name", format := fun h => h.objectID,
    highlight := some fun v h => highlightValue v h.hlResult.name,
    importance := 100 }]

/-- A record named `ab` whose name annotation is a full match. -/
def cexHit : Hit :=
  { objectID := str "ab", humanDownloadsLast30Days := str "", popular := false,
    types := ⟨str "x", str ""⟩, description := none, modified := 0,
    homepage := none, repository := none,
    hlResult := ⟨some ⟨str "ab", str "full", true, []⟩, none⟩ }

/-- Counterexample theorem for C6: the data cell of the fully-matched
name column is `bold ("ab" ++ two spaces)` — its padding is wrapped in
emphasis — and differs from `bold "ab"` followed by the padding. -/
theorem printTable_padding_cex :
    ((pickedCols cexCols (some 80) [formatResult cexCols cexHit] [cexHit]).getD 0 []).getD 1 []
      = bold (str "ab" ++ [' ', ' ']) ∧
    ((pickedCols cexCols (some 80) [formatResult cexCols cexHit] [cexHit]).getD 0 []).getD 1 []
      ≠ bold (str "ab") ++ [' ', ' '] := by
  decide

/-- C6 (amended): the highlight overlay applies only to columns that
declare a highlighter (others pass through the phase unchanged), only to
data cells (index ≥ 1; the header cell is returned as aligned), and
strictly after alignment (each data cell is the highlighter applied to
the aligned cell); for a non-full-match annotation whose matched words
are nonempty and cannot match a space, trailing padding stays outside the
emphasis — but a full match wraps the whole padded cell, padding
included. -/
theorem highlight_overlay_spec (cols : List Column)
    (rows : List (List Str)) (hits : List Hit) :
    (∀ i : Fin cols.length, (cols.get i).highlight = none →
      pickedEntry cols rows hits i = (formattedCols cols rows).getD i.val []) ∧
    (∀ i : Fin cols.length, ∀ hl, (cols.get i).highlight = some hl →
      (pickedEntry cols rows hits i).getD 0 []
          = ((formattedCols cols rows).getD i.val []).getD 0 [] ∧
      ∀ r, r < rows.length → (pickedEntry cols rows hits i).getD (r + 1) []
          = hl (((formattedCols cols rows).getD i.val []).getD (r + 1) [])
              (hits.getD r default)) ∧
    (∀ (v : Str) (k : Nat) (h : Description), h.fullyHighlighted = false →
      (∀ w ∈ h.matchedWords, w ≠ [] ∧ ∀ tk ∈ compileWord w, tokMatches tk ' ' = false) →
      highlightValue (v ++ List.replicate k ' ') (some h)
        = highlightValue v (some h) ++ List.replicate k ' ') := by
  refine ⟨?_, ?_, ?_⟩
  · intro i hnone
    rw [pickedEntry, hnone]
  · intro i hl hsome
    have hflen : ((formattedCols cols rows).getD i.val []).length = rows.length + 1 :=
      formattedCols_entry_length cols rows i
    constructor
    · rw [pickedEntry, hsome]
      have h0 : (0 : Nat) < ((formattedCols cols rows).getD i.val []).length := by
        omega
      have h0m : (0 : Nat) <
          ((((formattedCols cols rows).getD i.val []).mapIdx fun j v =>
            if 0 < j then hl v (hits.getD (j - 1) default) else v)).length := by
        rw [List.length_mapIdx]
        exact h0
      rw [List.getD_eq_getElem?_getD, List.getElem?_eq_getElem h0m, Option.getD_some]
      show ((((formattedCols cols rows).getD i.val []).mapIdx fun j v =>
          if 0 < j then hl v (hits.getD (j - 1) default) else v)).get ⟨0, h0m⟩ = _
      rw [List.get_mapIdx _ _ 0 h0]
      rw [if_neg (by omega)]
      have heq0 : ((formattedCols cols rows).getD i.val []).getD 0 []
          = ((formattedCols cols rows).getD i.val []).get ⟨0, h0⟩ := by
        rw [List.getD_eq_getElem?_getD, List.getElem?_eq_getElem h0]
        rfl
      exact heq0.symm
    · intro r hr
      rw [pickedEntry, hsome]
      have hlt : r + 1 < ((formattedCols cols rows).getD i.val []).length := by
        omega
      have hltm : r + 1 <
          ((((formattedCols cols rows).getD i.val []).mapIdx fun j v =>
            if 0 < j then hl v (hits.getD (j - 1) default) else v)).length := by
        rw [List.length_mapIdx]
        exact hlt
      rw [List.getD_eq_getElem?_getD, List.getElem?_eq_getElem hltm, Option.getD_some]
      show ((((formattedCols cols rows).getD i.val []).mapIdx fun j v =>
          if 0 < j then hl v (hits.getD (j - 1) default) else v)).get ⟨r + 1, hltm⟩ = _
      rw [List.get_mapIdx _ _ (r + 1) hlt]
      rw [if_pos (Nat.succ_pos r)]
      have heq : ((formattedCols cols rows).getD i.val []).getD (r + 1) []
          = ((formattedCols cols rows).getD i.val []).get ⟨r + 1, hlt⟩ := by
        rw [List.getD_eq_getElem?_getD, List.getElem?_eq_getElem hlt]
        rfl
      rw [heq, Nat.add_sub_cancel]
  · intro v k h hful hws
    by_cases hlev : h.matchLevel = str "none"
    · simp [highlightValue, hlev]
    · simp only [highlightValue, if_neg hlev, hful, Bool.false_eq_true, if_false]
      exact highlight_fold_spaces h.matchedWords v k hws

/-- Witness for C6's amended theorem: the highlight-free scenario column
passes through the overlay unchanged, and highlighting `ab` plus two
padding spaces for the non-matching word `q` leaves the padding outside
(everything unchanged here). -/
theorem highlight_overlay_spec_witness :
    pickedEntry descCols [[str "a", str "b"]] []
        ⟨0, by decide⟩
      = (formattedCols descCols [[str "a", str "b"]]).getD 0 [] ∧
    highlightValue (str "ab" ++ List.replicate 2 ' ')
        (some ⟨str "ab", str "partial", false, [str "q"]⟩)
      = highlightValue (str "ab") (some ⟨str "ab", str "partial", false, [str "q"]⟩)
          ++ List.replicate 2 ' ' := by
  have h := highlight_overlay_spec descCols [[str "a", str "b"]] []
  exact ⟨h.1 ⟨0, by decide⟩ rfl,
    h.2.2 (str "ab") 2 ⟨str "ab", str "partial", false, [str "q"]⟩ rfl (by decide)⟩

/-- A run with no options set. -/
def opts0 : Opts := ⟨false, false, 10, false, false, false, false, false, false⟩

/-- Whether an `Except` is a success. -/
def exceptIsOk {α β : Type} : Except α β → Bool
  | Except.ok _ => true
  | Except.error _ => false

/-- Witness for C7: with the scenario catalog and no rows the table is
the single header line, and a default-option run over zero hits renders
zero table lines. -/
theorem printTable_lines_witness :
    (printTable descCols (some 80) [] []).length = 1 ∧
    runMain opts0 (some 80) [] = Except.ok [] := by
  have h := printTable_lines descCols (some 80) [] []
  refine ⟨h.1, ?_⟩
  cases hx : applyFlags opts0 (columns opts0.exact) with
  | error e =>
    have hok : exceptIsOk (applyFlags opts0 (columns opts0.exact)) = true := by decide
    rw [hx] at hok
    simp [exceptIsOk] at hok
  | ok x => exact h.2.2 opts0 (some 80) x hx

/-- C9: whenever more than one of the mutually exclusive filter options
(`untyped`, `dt`, `bundled`) is requested, the whole run fails with the
error naming the conflicting options — for every hit list and terminal
width, so before any formatting or selection work touches the records —
and no table lines are produced. -/
theorem conflicting_flags_fail (opts : Opts) (termCols : Option Nat) (hits : List Hit)
    (hconf : 1 < (if opts.untyped then 1 else 0) + (if opts.dt then 1 else 0)
      + (if opts.bundled then 1 else 0)) :
    runMain opts termCols hits = Except.error conflictMsg ∧
    containsSub (str "untyped") conflictMsg = true ∧
    containsSub (str "dt") conflictMsg = true ∧
    containsSub (str "bundled") conflictMsg = true := by
  refine ⟨?_, by decide, by decide, by decide⟩
  obtain ⟨bnpm, byarn, num, bexact, brepo, bdebug, bbund, bdt, bunty⟩ := opts
  dsimp only at hconf ⊢
  cases bunty <;> cases bdt <;> cases bbund <;>
    first
    | exact absurd hconf (by decide)
    | (cases byarn <;> cases bnpm <;> cases brepo <;> cases bexact <;> rfl)

/-- A run requesting both `--dt` and `--bundled`. -/
def optsConflict : Opts := ⟨false, false, 10, false, false, false, true, true, false⟩

/-- Witness for C9: requesting `--dt` and `--bundled` together makes the
run fail with the conflict error before any records are consumed. -/
theorem conflicting_flags_fail_witness :
    (1 < (if optsConflict.untyped then 1 else 0) + (if optsConflict.dt then 1 else 0)
      + (if optsConflict.bundled then 1 else 0)) ∧
    (runMain optsConflict none [] = Except.error conflictMsg ∧
      containsSub (str "untyped") conflictMsg = true ∧
      containsSub (str "dt") conflictMsg = true ∧
      containsSub (str "bundled") conflictMsg = true) :=
  ⟨by decide, conflicting_flags_fail optsConflict none [] (by decide)⟩
